import Mathlib

/-!
Verification of the dependency resolver and lock subsystem of the
tiny package manager (src/list.ts, the lock module, and the driver).

The TypeScript source is shallowly embedded: JavaScript objects become
association lists (`lookupA`/`setA` mirror property read/assignment),
the recursive async traversal `collectDeps` becomes a fuel-indexed
function in the `Except` monad executed under the source's
single-threaded cooperative schedule (siblings run in order, sharing
the mutated stack array, which the source pushes to and never pops),
and the external `semver` library is a parameter `SemverImpl`
(the source's call `semver.maxSatisying` is the misspelling the spec
notes; it is modelled by the intended `maxSatisfying` member).
-/

namespace TinyPM

/-- `dist` part of a registry manifest version: `{ shasum, tarball }`. -/
structure Dist where
  shasum : String
  tarball : String
deriving DecidableEq, Repr

/-- One version's record in a registry manifest:
`{ dependencies?, dist }` (`dependencies` may be absent, the source
reads it with `?? {}`). -/
structure VersionInfo where
  dependencies : Option (List (String × String))
  dist : Dist
deriving DecidableEq, Repr

/-- A registry manifest: `version → VersionInfo`, versions enumerated
in the registry's (ascending) order. -/
abbrev Manifest := List (String × VersionInfo)

/-- A lock entry: `{ version, url, shasum, dependencies }`. -/
structure LockEntry where
  version : String
  url : String
  shasum : String
  dependencies : List (String × String)
deriving DecidableEq, Repr

/-- A lock map, keyed by the literal string `name@constraint`. -/
abbrev Lock := List (String × LockEntry)

/-- A `topLevel` value: `{ url, version }`. -/
structure TopInfo where
  url : String
  version : String
deriving DecidableEq, Repr

/-- An `unsatisfied` element as declared in the source:
`Array<{ name: string; parent: string; url: string }>`. -/
structure UnsatEntry where
  name : String
  parent : String
  url : String
deriving DecidableEq, Repr

/-- A dependency-stack frame: `{ name, version, dependencies }`. -/
structure Frame where
  name : String
  version : String
  dependencies : List (String × String)
deriving DecidableEq, Repr

/-- The resolver's shared mutable state: the `topLevel` map, the
`unsatisfied` list and the accumulating new lock. -/
structure St where
  topLevel : List (String × TopInfo)
  unsatisfied : List UnsatEntry
  newLock : Lock
deriving DecidableEq, Repr

/-- The value `{ name, version }` returned for an originally
unconstrained root dependency. -/
structure RootRet where
  name : String
  version : String
deriving DecidableEq, Repr

/-- The project manifest: `dependencies` and `devDependencies`. -/
structure PackageJson where
  dependencies : Option (List (String × String))
  devDependencies : Option (List (String × String))
deriving DecidableEq, Repr

/-- Failure modes of an embedded run. `outOfFuel` is the artefact of the
fuel embedding; every other constructor corresponds to a throw or a
runtime crash of the source. -/
inductive Err where
  | outOfFuel
  | registryUnreachable
  | noMatchingVersion
  | badManifest
  | emptyStackCrash
deriving DecidableEq, Repr

/-- Decidable equality of embedded run results, so that witnesses can be
checked by evaluation. -/
instance {ε α : Type} [DecidableEq ε] [DecidableEq α] : DecidableEq (Except ε α) :=
  fun a b =>
    match a, b with
    | Except.error e1, Except.error e2 =>
      if h : e1 = e2 then Decidable.isTrue (by rw [h])
      else Decidable.isFalse (by intro hc; cases hc; exact h rfl)
    | Except.error _, Except.ok _ => Decidable.isFalse (by intro hc; cases hc)
    | Except.ok _, Except.error _ => Decidable.isFalse (by intro hc; cases hc)
    | Except.ok v1, Except.ok v2 =>
      if h : v1 = v2 then Decidable.isTrue (by rw [h])
      else Decidable.isFalse (by intro hc; cases hc; exact h rfl)

/-- JavaScript object property read: first binding of the key. -/
def lookupA {α : Type} : List (String × α) → String → Option α
  | [], _ => none
  | (k, v) :: rest, key => if k = key then some v else lookupA rest key

/-- JavaScript object property assignment: overwrite the binding in
place when the key exists, append it otherwise. -/
def setA {α : Type} : List (String × α) → String → α → List (String × α)
  | [], key, v => [(key, v)]
  | (k, w) :: rest, key, v =>
    if k = key then (k, v) :: rest else (k, w) :: setA rest key v

/-- The external semver library surface the resolver uses. -/
structure SemverImpl where
  satisfies : String → String → Bool
  maxSatisfying : List String → String → Option String

/-- `lock.getItem(name, constraint)`: look up `name@constraint` in the
old lock and synthesize a one-version manifest from the entry. -/
def getItem (oldLock : Lock) (name constraint : String) : Option Manifest :=
  match lookupA oldLock (name ++ "@" ++ constraint) with
  | none => none
  | some item =>
    some [(item.version, ⟨some item.dependencies, ⟨item.shasum, item.url⟩⟩)]

/-- `lock.updateOrCreate(key, info)`: `info` carries every field, so the
`Object.assign` merge replaces the whole value at `key`. -/
def updateOrCreate (newLock : Lock) (key : String) (info : LockEntry) : Lock :=
  setA newLock key info

/-- `const manifest = fromLock || (await resolve(name))`: the old lock is
consulted first; the registry only on a miss, failing when it has no
document for `name`. -/
def acquireManifest (oldLock : Lock) (registry : List (String × Manifest))
    (name constraint : String) : Except Err Manifest :=
  match getItem oldLock name constraint with
  | some m => Except.ok m
  | none =>
    match lookupA registry name with
    | some m => Except.ok m
    | none => Except.error Err.registryUnreachable

/-- Version choice (lines 38-41): a non-empty (truthy) constraint goes
through `maxSatisfying`; an empty constraint takes the last listed
version. -/
def chooseVersion (S : SemverImpl) (manifest : Manifest) (constraint : String) :
    Option String :=
  if constraint = "" then (manifest.map Prod.fst).getLast?
  else S.maxSatisfying (manifest.map Prod.fst) constraint

/-- `checkStackDependencies(name, version, stack)` (lines 96-108):
`findIndex` over the stack of the predicate that is true when the frame
does not list `name` in its dependencies, or when `version` satisfies
the listed range; `-1` when no frame tests true. -/
def checkStackDependencies (S : SemverImpl) (name version : String)
    (stack : List Frame) : Int :=
  match stack.findIdx? (fun f =>
    match lookupA f.dependencies name with
    | none => true
    | some semverRange => S.satisfies version semverRange) with
  | some i => (i : Int)
  | none => -1

/-- `hasCirculation(name, range, stack)` (lines 110-114). -/
def hasCirculation (S : SemverImpl) (name range : String)
    (stack : List Frame) : Bool :=
  stack.any (fun item => item.name = name && S.satisfies item.version range)

/-- `Array.prototype.slice(start)` with a single (possibly negative)
start argument: a negative start counts from the end, clamped at 0. -/
def jsSliceFrom {α : Type} (l : List α) (start : Int) : List α :=
  l.drop (if start < 0 then (start + l.length).toNat else start.toNat)

/-- `Array.prototype.join("/node_modules/")`. -/
def joinModulesPath (names : List String) : String :=
  String.intercalate "/node_modules/" names

/-- The parent path pushed in the compatible-but-conflicting case
(lines 56-59): `stack.map(f => f.name).slice(conflictIndex - 2).join("/node_modules/")`. -/
def conflictParent (stack : List Frame) (conflictIndex : Int) : String :=
  joinModulesPath (jsSliceFrom (stack.map Frame.name) (conflictIndex - 2))

/-- The placement decision (lines 48-68). `Except.ok none` is the early
`return` of line 52 (existing compatible top-level copy, conflict scan
returned `-1`); `Err.emptyStackCrash` is the `stack.at(-1)!.name` read
failing on an empty stack in the incompatible branch. -/
def placement (S : SemverImpl) (name constraint matched tarball : String)
    (stack : List Frame) (st : St) : Except Err (Option St) :=
  match lookupA st.topLevel name with
  | none =>
    Except.ok (some { st with topLevel := setA st.topLevel name ⟨tarball, matched⟩ })
  | some t =>
    if S.satisfies t.version constraint then
      if checkStackDependencies S name matched stack = -1 then
        Except.ok none
      else
        Except.ok (some { st with unsatisfied := st.unsatisfied ++
          [⟨name, conflictParent stack (checkStackDependencies S name matched stack), tarball⟩] })
    else
      match stack.getLast? with
      | none => Except.error Err.emptyStackCrash
      | some last => Except.ok (some { st with unsatisfied := st.unsatisfied ++
          [⟨name, last.name, tarball⟩] })

/-- Sequential traversal of the filtered dependency entries
(the `Promise.all` of lines 85-89 under the single-threaded cooperative
schedule): each child receives the stack returned by its predecessor,
since the source's shared array accumulates frames and is never
popped. -/
def goDeps (step : String → String → List Frame → St →
      Except Err (List Frame × St × Option RootRet)) :
    List (String × String) → List Frame → St →
      Except Err (List Frame × St)
  | [], stack, st => Except.ok (stack, st)
  | (dep, range) :: rest, stack, st =>
    match step dep range stack st with
    | Except.error e => Except.error e
    | Except.ok (stack1, st1, _) => goDeps step rest stack1 st1

/-- `collectDeps(name, constraint, stack)` (lines 27-95), fuel-indexed.
The body follows the source order: manifest acquisition, version
choice, placement (with the early return of line 52), lock update under
the key `name@constraint`, frame push, filtered recursive descent, and
the root signal `{ name, version: "^" + matched }` for an empty
constraint. -/
def collectDeps (S : SemverImpl) (registry : List (String × Manifest))
    (oldLock : Lock) :
    Nat → String → String → List Frame → St →
      Except Err (List Frame × St × Option RootRet)
  | 0, _, _, _, _ => Except.error Err.outOfFuel
  | fuel + 1, name, constraint, stack, st =>
    match acquireManifest oldLock registry name constraint with
    | Except.error e => Except.error e
    | Except.ok manifest =>
      match chooseVersion S manifest constraint with
      | none => Except.error Err.noMatchingVersion
      | some matched =>
        match lookupA manifest matched with
        | none => Except.error Err.badManifest
        | some matchedManifest =>
          match placement S name constraint matched matchedManifest.dist.tarball stack st with
          | Except.error e => Except.error e
          | Except.ok none => Except.ok (stack, st, none)
          | Except.ok (some st1) =>
            let dependencies := matchedManifest.dependencies.getD []
            let entry : LockEntry :=
              ⟨matched, matchedManifest.dist.tarball, matchedManifest.dist.shasum, dependencies⟩
            let st2 := { st1 with
              newLock := updateOrCreate st1.newLock (name ++ "@" ++ constraint) entry }
            let stack1 := stack ++ [⟨name, matched, dependencies⟩]
            match goDeps (fun d r s t => collectDeps S registry oldLock fuel d r s t)
                (dependencies.filter (fun p => !hasCirculation S p.1 p.2 stack1))
                stack1 st2 with
            | Except.error e => Except.error e
            | Except.ok (stack2, st3) =>
              Except.ok (stack2, st3,
                if constraint = "" then some ⟨name, "^" ++ matched⟩ else none)

/-- One `Promise.all(Object.entries(map).map(collectDeps))` group of the
driver (lines 116-143), run sequentially with a fresh stack per entry,
collecting the per-entry return values in order. -/
def runGroup (S : SemverImpl) (registry : List (String × Manifest))
    (oldLock : Lock) (fuel : Nat) :
    List (String × String) → St → Except Err (St × List (Option RootRet))
  | [], st => Except.ok (st, [])
  | (name, range) :: rest, st =>
    match collectDeps S registry oldLock fuel name range [] st with
    | Except.error e => Except.error e
    | Except.ok (_, st1, ret) =>
      match runGroup S registry oldLock fuel rest st1 with
      | Except.error e => Except.error e
      | Except.ok (st2, rets) => Except.ok (st2, ret :: rets)

/-- `.filter(Boolean).forEach(item => map[item.name] = item.version)`. -/
def applyRootRets (m : List (String × String)) (rets : List (Option RootRet)) :
    List (String × String) :=
  rets.foldl (fun acc r =>
    match r with
    | some it => setA acc it.name it.version
    | none => acc) m

/-- The driver (default export, lines 116-146): resolve the
`dependencies` group, rewrite it from the non-null returns, then the
same for `devDependencies`; the plan is the final state. -/
def runList (S : SemverImpl) (registry : List (String × Manifest))
    (oldLock : Lock) (fuel : Nat) (root : PackageJson) (st : St) :
    Except Err (PackageJson × St) :=
  match root.dependencies with
  | none =>
    match root.devDependencies with
    | none => Except.ok (root, st)
    | some dev =>
      match runGroup S registry oldLock fuel dev st with
      | Except.error e => Except.error e
      | Except.ok (st1, rets) =>
        Except.ok ({ root with devDependencies := some (applyRootRets dev rets) }, st1)
  | some deps =>
    match runGroup S registry oldLock fuel deps st with
    | Except.error e => Except.error e
    | Except.ok (st1, rets) =>
      match root.devDependencies with
      | none =>
        Except.ok ({ root with dependencies := some (applyRootRets deps rets) }, st1)
      | some dev =>
        match runGroup S registry oldLock fuel dev st1 with
        | Except.error e => Except.error e
        | Except.ok (st2, rets2) =>
          Except.ok ({ root with
                       dependencies := some (applyRootRets deps rets),
                       devDependencies := some (applyRootRets dev rets2) }, st2)

/-- Projection used to state facts about a run that ended in `ok`. -/
def okSt : Except Err (PackageJson × St) → Option St
  | Except.ok (_, st) => some st
  | _ => none

/-- Projection to the root manifest of a completed run. -/
def okRoot : Except Err (PackageJson × St) → Option PackageJson
  | Except.ok (root, _) => some root
  | _ => none

/-- Projection used to state facts about one `collectDeps` call. -/
def okCall : Except Err (List Frame × St × Option RootRet) →
    Option (List Frame × St × Option RootRet)
  | Except.ok out => some out
  | _ => none

/-- The error of a failed run, if any. -/
def errOf {α : Type} : Except Err α → Option Err
  | Except.error e => some e
  | _ => none

/-! ### A small concrete semver instance

The resolver treats the semver library as an external collaborator, so
the theorems below are parameterized by `SemverImpl` together with the
standard facts they need about it.  For witnesses and counterexamples we
use a small executable instance over numeric `major.minor.patch`
versions with empty, caret and exact-match ranges. -/

/-- The numeric value of a decimal digit character, if it is one. -/
def charDigit (ch : Char) : Option Nat :=
  if 48 ≤ ch.toNat ∧ ch.toNat ≤ 57 then some (ch.toNat - 48) else none

/-- Reads a decimal numeral from characters, most significant first. -/
def readDigits : List Char → Nat → Option Nat
  | [], acc => some acc
  | ch :: rest, acc =>
    match charDigit ch with
    | some d => readDigits rest (acc * 10 + d)
    | none => none

/-- Reads a non-empty decimal numeral. -/
def readNat : List Char → Option Nat
  | [] => none
  | cs => readDigits cs 0

/-- Splits a character list on `.`. -/
def splitOnDot : List Char → List (List Char)
  | [] => [[]]
  | ch :: rest =>
    let r := splitOnDot rest
    if ch = '.' then [] :: r
    else
      match r with
      | [] => [[ch]]
      | g :: gs => (ch :: g) :: gs

/-- Parses `major.minor.patch` with numeric components. -/
def parse3L (cs : List Char) : Option (Nat × Nat × Nat) :=
  match (splitOnDot cs).map readNat with
  | [some a, some b, some c] => some (a, b, c)
  | _ => none

/-- Parses a version string as a numeric triple. -/
def parse3 (v : String) : Option (Nat × Nat × Nat) :=
  parse3L v.toList

/-- Lexicographic order on numeric triples. -/
def le3 (a b : Nat × Nat × Nat) : Bool :=
  if a.1 ≠ b.1 then decide (a.1 < b.1)
  else if a.2.1 ≠ b.2.1 then decide (a.2.1 < b.2.1)
  else decide (a.2.2 ≤ b.2.2)

/-- Toy satisfaction: the empty range matches everything, `^x.y.z`
matches any version of the same major at least `x.y.z`, and any other
range is an exact version match. -/
def toySatisfies (v c : String) : Bool :=
  if c = "" then true
  else
    match c.toList with
    | '^' :: rest =>
      match parse3L rest, parse3 v with
      | some a, some b => decide (a.1 = b.1) && le3 a b
      | _, _ => false
    | _ => decide (v = c)

/-- Toy max-satisfying: the last listed satisfying version (the registry
enumerates versions in ascending order). -/
def toyMaxSatisfying (vs : List String) (c : String) : Option String :=
  (vs.filter (fun v => toySatisfies v c)).getLast?

/-- The concrete semver instance used by witnesses. -/
def toySemver : SemverImpl :=
  ⟨toySatisfies, toyMaxSatisfying⟩

/-! ### Spec-side comparison definition and concrete scenarios -/

/-- Follows the spec's words for the conflicting-ancestor parent path:
"the names of the stack frames from index `i-2` through the end of the
stack", read as the suffix starting at position `i-2` (a start before
the beginning of the list yields the whole list).  Declared only to be
compared against `conflictParent`, the source's computation. -/
def claimedConflictParent (stack : List Frame) (i : Int) : String :=
  joinModulesPath ((stack.map Frame.name).drop (i - 2).toNat)

/-- The empty initial resolver state. -/
def st0 : St := ⟨[], [], []⟩

/-- A three-frame stack with names `A`, `B`, `C`. -/
def stackABC : List Frame :=
  [⟨"A", "1.0.0", []⟩, ⟨"B", "1.0.0", []⟩, ⟨"C", "1.0.0", []⟩]

/-- Registry with one package `A` at the single version `1.0.0`. -/
def regA : List (String × Manifest) :=
  [("A", [("1.0.0", ⟨some [], ⟨"sa", "ua"⟩⟩)])]

/-- An old lock binding `A@^1.0.0` to version `1.2.3`. -/
def oldLA : Lock :=
  [("A@^1.0.0", ⟨"1.2.3", "ul", "sl", []⟩)]

/-- Registry where `A` has gained the newer satisfying `1.4.0`. -/
def regNewer : List (String × Manifest) :=
  [("A", [("1.2.3", ⟨some [], ⟨"s3", "u3"⟩⟩), ("1.4.0", ⟨some [], ⟨"s4", "u4"⟩⟩)])]

/-! ### Key-sorted serialization of the new lock -/

/-- Insertion into a key-sorted association list. -/
def insertSorted {α : Type} (p : String × α) :
    List (String × α) → List (String × α)
  | [] => [p]
  | q :: rest => if p.1 ≤ q.1 then p :: q :: rest else q :: insertSorted p rest

/-- Insertion sort of an association list by key. -/
def sortPairs {α : Type} : List (String × α) → List (String × α)
  | [] => []
  | p :: rest => insertSorted p (sortPairs rest)

/-- Modelled from the spec: `utils.sortKeys` (src/utils.ts is not part of
the repository snapshot, only its call sites are).  Per the spec the
lock is serialized "with keys and nested maps in deterministic (sorted)
order" and "keys recursively sorted", so the top-level lock keys and
each entry's nested `dependencies` map are sorted by key. -/
def sortKeysLock (l : Lock) : Lock :=
  sortPairs (l.map (fun p =>
    (p.1, { p.2 with dependencies := sortPairs p.2.dependencies })))

/-- Registry where `A` has versions in two majors. -/
def regTwoMajor : List (String × Manifest) :=
  [("A", [("1.0.0", ⟨some [], ⟨"s1", "u1"⟩⟩), ("2.0.0", ⟨some [], ⟨"s2", "u2"⟩⟩)])]

/-- Project manifest with `A@^1.0.0` at runtime and `A@^2.0.0` in dev:
incompatible direct demands for one name. -/
def rootClash : PackageJson :=
  ⟨some [("A", "^1.0.0")], some [("A", "^2.0.0")]⟩

/-- Project manifest demanding `A@^1.0.0` at runtime and the already
compatible exact `A@1.0.0` in dev. -/
def rootCompat : PackageJson :=
  ⟨some [("A", "^1.0.0")], some [("A", "1.0.0")]⟩

/-- Project manifest with the unconstrained `A` in both groups. -/
def rootEmptyTwice : PackageJson :=
  ⟨some [("A", "")], some [("A", "")]⟩

/-- Project manifest demanding `A@1.0.0` and `B@^1.0.0`. -/
def rootAB : PackageJson :=
  ⟨some [("A", "1.0.0"), ("B", "^1.0.0")], none⟩

/-- Registry where the three versions of `A` share one tarball url and
`B@1.0.0` demands exactly `A@2.0.0`. -/
def regShared2 : List (String × Manifest) :=
  [("A", [("1.0.0", ⟨some [], ⟨"s", "u"⟩⟩), ("2.0.0", ⟨some [], ⟨"s", "u"⟩⟩),
          ("3.0.0", ⟨some [], ⟨"s", "u"⟩⟩)]),
   ("B", [("1.0.0", ⟨some [("A", "2.0.0")], ⟨"sb", "ub"⟩⟩)])]

/-- As `regShared2`, except `B@1.0.0` demands exactly `A@3.0.0`. -/
def regShared3 : List (String × Manifest) :=
  [("A", [("1.0.0", ⟨some [], ⟨"s", "u"⟩⟩), ("2.0.0", ⟨some [], ⟨"s", "u"⟩⟩),
          ("3.0.0", ⟨some [], ⟨"s", "u"⟩⟩)]),
   ("B", [("1.0.0", ⟨some [("A", "3.0.0")], ⟨"sb", "ub"⟩⟩)])]

/-- Registry with the mutual cycle `A@1.0.0 → B@^1.0.0 → A@^1.0.0`. -/
def regCyc : List (String × Manifest) :=
  [("A", [("1.0.0", ⟨some [("B", "^1.0.0")], ⟨"sa", "ua"⟩⟩)]),
   ("B", [("1.0.0", ⟨some [("A", "^1.0.0")], ⟨"sb", "ub"⟩⟩)])]

/-- Project manifest entering the cycle at `A@^1.0.0`. -/
def rootCyc : PackageJson :=
  ⟨some [("A", "^1.0.0")], none⟩

/-- The `(name, version)` pairs available in `regCyc`. -/
def pairsCyc : List (String × String) :=
  [("A", "1.0.0"), ("B", "1.0.0")]

/-- The `(name, version)` identity of a stack frame, the quantity the
termination argument counts. -/
def framePair (f : Frame) : String × String := (f.name, f.version)

/-- An `unsatisfied` entry creditable to a demand `(name, c)`: its name
is the demanded package and its url is the `dist.tarball` of the
version matched for that demand. -/
def EntryFromDemand (S : SemverImpl) (registry : List (String × Manifest))
    (oldLock : Lock) (e : UnsatEntry) : Prop :=
  ∃ (name c : String) (manifest : Manifest) (matched : String) (mm : VersionInfo),
    acquireManifest oldLock registry name c = Except.ok manifest ∧
    chooseVersion S manifest c = some matched ∧
    lookupA manifest matched = some mm ∧
    e.name = name ∧ e.url = mm.dist.tarball

/-- Every binding of a lock is the canonical record of some demand: the
key is `n@c`, the value carries the version matched for `(n, c)`
together with that version's tarball, shasum and dependency map. -/
def LockCanonical (S : SemverImpl) (registry : List (String × Manifest))
    (oldLock : Lock) (lk : Lock) : Prop :=
  ∀ p ∈ lk, ∃ (n2 c2 : String) (manifest : Manifest) (matched : String)
      (mm : VersionInfo),
    p.1 = n2 ++ "@" ++ c2 ∧
    acquireManifest oldLock registry n2 c2 = Except.ok manifest ∧
    chooseVersion S manifest c2 = some matched ∧
    lookupA manifest matched = some mm ∧
    p.2 = ⟨matched, mm.dist.tarball, mm.dist.shasum, mm.dependencies.getD []⟩

/-- The final state of resolving `rootAB` against `regShared2`. -/
def stShared2Fin : St :=
  ⟨[("A", ⟨"u", "1.0.0"⟩), ("B", ⟨"ub", "1.0.0"⟩)],
   [⟨"A", "B", "u"⟩],
   [("A@1.0.0", ⟨"1.0.0", "u", "s", []⟩),
    ("B@^1.0.0", ⟨"1.0.0", "ub", "sb", [("A", "2.0.0")]⟩),
    ("A@2.0.0", ⟨"2.0.0", "u", "s", []⟩)]⟩

/-- A state with a pre-existing top-level binding for `Z`. -/
def stZ : St := ⟨[("Z", ⟨"uz", "9.9.9"⟩)], [], []⟩

/-- The state `stZ` after resolving `A@^1.0.0` against `regA`. -/
def stFinZ : St :=
  ⟨[("Z", ⟨"uz", "9.9.9"⟩), ("A", ⟨"ua", "1.0.0"⟩)], [],
   [("A@^1.0.0", ⟨"1.0.0", "ua", "sa", []⟩)]⟩

/-- Two insertion orders of the same two lock entries. -/
def lockBA : Lock :=
  [("b@^1.0.0", ⟨"1.0.0", "ub", "sb", [("y", "^1.0.0"), ("x", "^2.0.0")]⟩),
   ("a@^1.0.0", ⟨"2.0.0", "ua", "sa", []⟩)]

/-- The same entries as `lockBA`, inserted in the other order. -/
def lockAB : Lock :=
  [("a@^1.0.0", ⟨"2.0.0", "ua", "sa", []⟩),
   ("b@^1.0.0", ⟨"1.0.0", "ub", "sb", [("y", "^1.0.0"), ("x", "^2.0.0")]⟩)]

/-! ### Facts about the toy instance, used to discharge the semver
hypotheses of the parameterized theorems at witnesses. -/

theorem toy_satisfies_empty (v : String) : toySemver.satisfies v "" = true := by
  simp [toySemver, toySatisfies]

theorem toy_maxSat_mem (vs : List String) (c m : String)
    (h : toySemver.maxSatisfying vs c = some m) : m ∈ vs := by
  have hm : m ∈ vs.filter (fun v => toySatisfies v c) := by
    have := List.mem_getLast?_eq_getLast (l := vs.filter (fun v => toySatisfies v c)) (x := m) h
    rcases this with ⟨hne, heq⟩
    rw [heq]
    exact List.getLast_mem hne
  exact List.mem_of_mem_filter hm

theorem toy_maxSat_satisfies (vs : List String) (c m : String)
    (h : toySemver.maxSatisfying vs c = some m) :
    toySemver.satisfies m c = true := by
  have hm : m ∈ vs.filter (fun v => toySatisfies v c) := by
    have := List.mem_getLast?_eq_getLast (l := vs.filter (fun v => toySatisfies v c)) (x := m) h
    rcases this with ⟨hne, heq⟩
    rw [heq]
    exact List.getLast_mem hne
  have hp := List.of_mem_filter hm
  simpa [toySemver] using hp

/-! ### C1: the conflict scan -/

/-- Claim C1 (code bug): the claim describes `checkStackDependencies` as
returning the lowest index whose frame depends on `name` with a range
`version` does not satisfy, and `-1` when every frame is silent or
satisfied.  The source's `findIndex` predicate is the negation of that:
on a one-frame stack silent about `C` it returns `0` where the claim
requires `-1`, and on a one-frame stack demanding `C@^1.0.0`, not
satisfied by `2.0.0`, it returns `-1` where the claim requires `0`. -/
theorem checkStackDependencies_inverted :
    checkStackDependencies toySemver "C" "2.0.0" [⟨"A", "1.0.0", []⟩] = 0 ∧
    checkStackDependencies toySemver "C" "2.0.0"
      [⟨"A", "1.0.0", [("C", "^1.0.0")]⟩] = -1 := by
  decide

/-! ### C2: the parent path of a conflicting nested copy -/

/-- Claim C2 (counterexample): at conflict index `0` on a three-frame
stack, the source's `slice(i - 2)` wraps around and keeps only the last
two frame names, while the claim's "frames from index `i-2` through the
end" is the whole stack. -/
theorem conflictParent_counterexample :
    conflictParent stackABC 0 = "B/node_modules/C" ∧
    claimedConflictParent stackABC 0 = "A/node_modules/B/node_modules/C" ∧
    conflictParent stackABC 0 ≠ claimedConflictParent stackABC 0 := by
  decide

/-- Claim C2 (amended): the entry appended in the compatible-but-
conflicting case carries the parent path
`stack.map(name).slice(i-2).join("/node_modules/")` with JavaScript
slice semantics: for `i ≥ 2` these are the frame names from index
`i - 2` through the end, but for `i < 2` the negative start counts from
the end of the array, keeping only the last `2 - i` names (the whole
list when it is shorter than that). -/
theorem conflictParent_slice (stack : List Frame) (i : Int) (hi : 0 ≤ i) :
    (2 ≤ i → conflictParent stack i =
      joinModulesPath ((stack.map Frame.name).drop (i - 2).toNat)) ∧
    (i < 2 → conflictParent stack i =
      joinModulesPath ((stack.map Frame.name).drop
        ((stack.map Frame.name).length - (2 - i).toNat))) := by
  unfold conflictParent jsSliceFrom
  constructor
  · intro h2
    have hn : ¬ (i - 2 < 0) := by omega
    rw [if_neg hn]
  · intro h2
    have hlt : i - 2 < 0 := by omega
    rw [if_pos hlt]
    have harith : (i - 2 + ((stack.map Frame.name).length : Int)).toNat =
        (stack.map Frame.name).length - (2 - i).toNat := by omega
    rw [harith]

/-- Claim C2 (witness): the amended characterization applied at conflict
index `2` on the concrete three-frame stack. -/
theorem conflictParent_slice_witness :
    (0 : Int) ≤ 2 ∧ conflictParent stackABC 2 =
      joinModulesPath ((stackABC.map Frame.name).drop ((2 : Int) - 2).toNat) :=
  ⟨by decide, (conflictParent_slice stackABC 2 (by decide)).1 (by decide)⟩

/-! ### C6: lock replay through `getItem` -/

/-- Claim C6: for a request present in the old lock, `getItem` returns the
synthetic manifest whose only key is the locked version, carrying the
entry's dependencies, tarball url and shasum; manifest acquisition is
then independent of the registry; the chosen version is the locked one
regardless of what the registry offers; and `getItem` returns `none`
for requests missing from the old lock. -/
theorem getItem_lock_replay (S : SemverImpl) (oldLock : Lock)
    (HSmem : ∀ vs c m, S.maxSatisfying vs c = some m → m ∈ vs)
    (name c : String) (e : LockEntry)
    (h : lookupA oldLock (name ++ "@" ++ c) = some e) :
    getItem oldLock name c =
      some [(e.version, ⟨some e.dependencies, ⟨e.shasum, e.url⟩⟩)] ∧
    (∀ reg reg2, acquireManifest oldLock reg name c =
      acquireManifest oldLock reg2 name c) ∧
    (∀ reg m v, acquireManifest oldLock reg name c = Except.ok m →
      chooseVersion S m c = some v → v = e.version) ∧
    (∀ n2 c2, lookupA oldLock (n2 ++ "@" ++ c2) = none →
      getItem oldLock n2 c2 = none) := by
  have hg : getItem oldLock name c =
      some [(e.version, ⟨some e.dependencies, ⟨e.shasum, e.url⟩⟩)] := by
    unfold getItem
    rw [h]
  refine ⟨hg, ?_, ?_, ?_⟩
  · intro reg reg2
    simp [acquireManifest, hg]
  · intro reg m v hacq hch
    have hm : m = [(e.version, ⟨some e.dependencies, ⟨e.shasum, e.url⟩⟩)] := by
      rw [acquireManifest, hg] at hacq
      exact (Except.ok.inj hacq).symm
    subst hm
    by_cases hc : c = ""
    · rw [chooseVersion, if_pos hc] at hch
      simpa using hch.symm
    · rw [chooseVersion, if_neg hc] at hch
      have := HSmem _ _ _ hch
      simpa using this
  · intro n2 c2 h2
    unfold getItem
    rw [h2]

/-- Claim C6 (witness): the lock replay facts at the concrete old lock
binding `A@^1.0.0 → 1.2.3` with a registry that has also added
`1.4.0`. -/
theorem getItem_lock_replay_witness :
    getItem oldLA "A" "^1.0.0" =
      some [("1.2.3", ⟨some [], ⟨"sl", "ul"⟩⟩)] ∧
    acquireManifest oldLA regNewer "A" "^1.0.0" =
      acquireManifest oldLA [] "A" "^1.0.0" ∧
    getItem oldLA "B" "^1.0.0" = none := by
  have hmain := getItem_lock_replay toySemver oldLA toy_maxSat_mem "A" "^1.0.0"
    ⟨"1.2.3", "ul", "sl", []⟩ (by decide)
  exact ⟨hmain.1, hmain.2.1 regNewer [], hmain.2.2.2 "B" "^1.0.0" (by decide)⟩

/-! ### Sorting lemmas for the lock serialization -/

theorem insertSorted_perm {α : Type} (p : String × α) (l : List (String × α)) :
    (insertSorted p l).Perm (p :: l) := by
  induction l with
  | nil => simp [insertSorted]
  | cons q rest ih =>
    unfold insertSorted
    by_cases h : p.1 ≤ q.1
    · rw [if_pos h]
    · rw [if_neg h]
      exact (ih.cons q).trans (List.Perm.swap p q rest)

theorem sortPairs_perm {α : Type} (l : List (String × α)) :
    (sortPairs l).Perm l := by
  induction l with
  | nil => simp [sortPairs]
  | cons p rest ih =>
    exact (insertSorted_perm p (sortPairs rest)).trans (ih.cons p)

theorem insertSorted_pairwise {α : Type} (p : String × α) (l : List (String × α))
    (hl : l.Pairwise (fun a b => a.1 ≤ b.1)) :
    (insertSorted p l).Pairwise (fun a b => a.1 ≤ b.1) := by
  induction l with
  | nil => simp [insertSorted]
  | cons q rest ih =>
    rcases List.pairwise_cons.mp hl with ⟨hq, hrest⟩
    unfold insertSorted
    by_cases h : p.1 ≤ q.1
    · rw [if_pos h]
      refine List.pairwise_cons.mpr ⟨?_, hl⟩
      intro b hb
      rcases List.mem_cons.mp hb with hbq | hbr
      · rw [hbq]; exact h
      · exact le_trans h (hq b hbr)
    · rw [if_neg h]
      refine List.pairwise_cons.mpr ⟨?_, ih hrest⟩
      intro b hb
      have hb2 : b ∈ p :: rest := (insertSorted_perm p rest).subset hb
      rcases List.mem_cons.mp hb2 with hbp | hbr
      · rw [hbp]; exact le_of_not_le h
      · exact hq b hbr

theorem sortPairs_pairwise {α : Type} (l : List (String × α)) :
    (sortPairs l).Pairwise (fun a b => a.1 ≤ b.1) := by
  induction l with
  | nil => simp [sortPairs]
  | cons p rest ih => exact insertSorted_pairwise p (sortPairs rest) ih

theorem sortPairs_eq_of_perm {α : Type} (l1 l2 : List (String × α))
    (hp : l1.Perm l2) (hnd : (l1.map Prod.fst).Nodup) :
    sortPairs l1 = sortPairs l2 := by
  haveI : IsAntisymm (String × α) (fun a b => a.1 < b.1) :=
    ⟨fun a b h1 h2 => absurd h2 (lt_asymm h1)⟩
  have h1 := sortPairs_perm l1
  have h2 := sortPairs_perm l2
  have hperm : (sortPairs l1).Perm (sortPairs l2) :=
    h1.trans (hp.trans h2.symm)
  have hstrict : ∀ (l : List (String × α)), (l.map Prod.fst).Nodup →
      (sortPairs l).Pairwise (fun a b => a.1 < b.1) := by
    intro l hl
    have hle := sortPairs_pairwise l
    have hnd2 : ((sortPairs l).map Prod.fst).Nodup :=
      (((sortPairs_perm l).map Prod.fst).nodup_iff).mpr hl
    have hne : (sortPairs l).Pairwise (fun a b => a.1 ≠ b.1) :=
      List.pairwise_map.mp hnd2
    exact (hle.and hne).imp (fun h => lt_of_le_of_ne h.1 h.2)
  have hnd2 : (l2.map Prod.fst).Nodup := ((hp.map Prod.fst).nodup_iff).mp hnd
  exact List.eq_of_perm_of_sorted hperm (hstrict l1 hnd) (hstrict l2 hnd2)

/-! ### C9: deterministic lock serialization -/

/-- Claim C9: the serialized image of the new lock is a pure function of
its key-value contents: two locks holding the same entries, in any
insertion orders, sort to the same key-ordered list (with nested
dependency maps sorted as well), so any serializer applied to the
sorted form emits identical bytes for both. -/
theorem writeLock_deterministic (l1 l2 : Lock) (hp : l1.Perm l2)
    (hnd : (l1.map Prod.fst).Nodup) :
    sortKeysLock l1 = sortKeysLock l2 ∧
    ∀ dump : Lock → List UInt8,
      dump (sortKeysLock l1) = dump (sortKeysLock l2) := by
  have hmap : (l1.map (fun p =>
      (p.1, { p.2 with dependencies := sortPairs p.2.dependencies }))).Perm
      (l2.map (fun p =>
      (p.1, { p.2 with dependencies := sortPairs p.2.dependencies }))) :=
    hp.map _
  have hkeys : ((l1.map (fun p =>
      (p.1, { p.2 with dependencies := sortPairs p.2.dependencies }))).map
      Prod.fst).Nodup := by
    have : (l1.map (fun p =>
        (p.1, { p.2 with dependencies := sortPairs p.2.dependencies }))).map
        Prod.fst = l1.map Prod.fst := by
      simp
    rw [this]
    exact hnd
  have heq : sortKeysLock l1 = sortKeysLock l2 :=
    sortPairs_eq_of_perm _ _ hmap hkeys
  exact ⟨heq, fun dump => by rw [heq]⟩

/-- Claim C9 (witness): the two insertion orders of the same two entries
serialize identically; the sample serializer records key lengths as
bytes. -/
theorem writeLock_deterministic_witness :
    sortKeysLock lockBA = sortKeysLock lockAB ∧
    (fun l : Lock => l.map (fun p => p.1.length.toUInt8)) (sortKeysLock lockBA)
      = (fun l : Lock => l.map (fun p => p.1.length.toUInt8)) (sortKeysLock lockAB) := by
  have hmain := writeLock_deterministic lockBA lockAB (by decide) (by decide)
  exact ⟨hmain.1, hmain.2 _⟩

/-! ### The stack only grows -/

theorem goDeps_stack_extend
    (step : String → String → List Frame → St →
      Except Err (List Frame × St × Option RootRet))
    (hstep : ∀ d r s t out, step d r s t = Except.ok out →
      ∃ ext, out.1 = s ++ ext) :
    ∀ todo stack st out, goDeps step todo stack st = Except.ok out →
      ∃ ext, out.1 = stack ++ ext := by
  intro todo
  induction todo with
  | nil =>
    intro stack st out h
    simp only [goDeps] at h
    cases h
    exact ⟨[], by simp⟩
  | cons p rest ih =>
    intro stack st out h
    obtain ⟨d, r⟩ := p
    simp only [goDeps] at h
    split at h
    · exact absurd h (by simp)
    · rename_i out1 heq
      obtain ⟨e1, he1⟩ := hstep _ _ _ _ _ heq
      obtain ⟨e2, he2⟩ := ih _ _ _ h
      simp only at he1
      exact ⟨e1 ++ e2, by rw [he2, he1, List.append_assoc]⟩

theorem collectDeps_stack_extend (S : SemverImpl)
    (registry : List (String × Manifest)) (oldLock : Lock) :
    ∀ fuel name c stack st out,
      collectDeps S registry oldLock fuel name c stack st = Except.ok out →
      ∃ ext, out.1 = stack ++ ext := by
  intro fuel
  induction fuel with
  | zero =>
    intro name c stack st out h
    simp [collectDeps] at h
  | succ fuel ih =>
    intro name c stack st out h
    simp only [collectDeps] at h
    split at h
    · exact absurd h (by simp)
    · split at h
      · exact absurd h (by simp)
      · split at h
        · exact absurd h (by simp)
        · split at h
          · exact absurd h (by simp)
          · cases h
            exact ⟨[], by simp⟩
          · split at h
            · exact absurd h (by simp)
            · rename_i stack1st heq
              cases h
              obtain ⟨e, he⟩ := goDeps_stack_extend _
                (fun d r s t out2 h2 => ih d r s t out2 h2) _ _ _ _ heq
              exact ⟨_, by rw [he, List.append_assoc]⟩

/-! ### What one call does to the shared state -/

/-- A successful placement that did not early-return either binds a free
top-level name or pushes one `unsatisfied` entry whose `name` is the
demanded name and whose `url` is the matched tarball. -/
theorem placement_shapes (S : SemverImpl) (name c matched tarball : String)
    (stack : List Frame) (st st1 : St)
    (h : placement S name c matched tarball stack st = Except.ok (some st1)) :
    (lookupA st.topLevel name = none ∧
      st1 = { st with topLevel := setA st.topLevel name ⟨tarball, matched⟩ }) ∨
    (∃ e : UnsatEntry, e.name = name ∧ e.url = tarball ∧
      st1 = { st with unsatisfied := st.unsatisfied ++ [e] }) := by
  unfold placement at h
  split at h
  · rename_i hnone
    cases h
    exact Or.inl ⟨hnone, rfl⟩
  · rename_i t ht
    split at h
    · split at h
      · exact absurd h (by simp)
      · cases h
        exact Or.inr ⟨_, rfl, rfl, rfl⟩
    · split at h
      · exact absurd h (by simp)
      · cases h
        exact Or.inr ⟨_, rfl, rfl, rfl⟩

theorem goDeps_preserves
    (step : String → String → List Frame → St →
      Except Err (List Frame × St × Option RootRet))
    (R : St → St → Prop)
    (hrefl : ∀ s, R s s)
    (htrans : ∀ a b c, R a b → R b c → R a c)
    (hstep : ∀ d r s t out, step d r s t = Except.ok out → R t out.2.1) :
    ∀ todo stack st out, goDeps step todo stack st = Except.ok out →
      R st out.2 := by
  intro todo
  induction todo with
  | nil =>
    intro stack st out h
    simp only [goDeps] at h
    cases h
    exact hrefl st
  | cons p rest ih =>
    intro stack st out h
    obtain ⟨d, r⟩ := p
    simp only [goDeps] at h
    split at h
    · exact absurd h (by simp)
    · rename_i out1 heq
      exact htrans _ _ _ (hstep _ _ _ _ _ heq) (ih _ _ _ h)

/-- Master preservation lemma: any reflexive transitive relation on
states that tolerates the three primitive updates a call performs — a
fresh top-level binding, an `unsatisfied` push, and the lock write of
the matched entry under the requested key — is preserved by
`collectDeps`. -/
theorem collectDeps_preserves (S : SemverImpl)
    (registry : List (String × Manifest)) (oldLock : Lock)
    (R : St → St → Prop)
    (hrefl : ∀ s, R s s)
    (htrans : ∀ a b c, R a b → R b c → R a c)
    (htop : ∀ (st : St) (name c : String) (manifest : Manifest)
      (matched : String) (mm : VersionInfo),
      acquireManifest oldLock registry name c = Except.ok manifest →
      chooseVersion S manifest c = some matched →
      lookupA manifest matched = some mm →
      lookupA st.topLevel name = none →
      R st { st with topLevel := setA st.topLevel name ⟨mm.dist.tarball, matched⟩ })
    (hunsat : ∀ (st : St) (name c : String) (manifest : Manifest)
      (matched : String) (mm : VersionInfo) (parent : String),
      acquireManifest oldLock registry name c = Except.ok manifest →
      chooseVersion S manifest c = some matched →
      lookupA manifest matched = some mm →
      R st { st with unsatisfied := st.unsatisfied ++ [⟨name, parent, mm.dist.tarball⟩] })
    (hlock : ∀ (st : St) (name c : String) (manifest : Manifest)
      (matched : String) (mm : VersionInfo),
      acquireManifest oldLock registry name c = Except.ok manifest →
      chooseVersion S manifest c = some matched →
      lookupA manifest matched = some mm →
      R st { st with newLock :=
        (updateOrCreate st.newLock (name ++ "@" ++ c)
          ⟨matched, mm.dist.tarball, mm.dist.shasum, mm.dependencies.getD []⟩) }) :
    ∀ fuel name c stack st out,
      collectDeps S registry oldLock fuel name c stack st = Except.ok out →
      R st out.2.1 := by
  intro fuel
  induction fuel with
  | zero =>
    intro name c stack st out h
    simp [collectDeps] at h
  | succ fuel ih =>
    intro name c stack st out h
    simp only [collectDeps] at h
    split at h
    · exact absurd h (by simp)
    · rename_i manifest hacq
      split at h
      · exact absurd h (by simp)
      · rename_i matched hch
        split at h
        · exact absurd h (by simp)
        · rename_i mm hmm
          split at h
          · exact absurd h (by simp)
          · cases h
            exact hrefl st
          · rename_i st1 hplace
            split at h
            · exact absurd h (by simp)
            · rename_i stack1st heq
              cases h
              have hst1 : R st st1 := by
                rcases placement_shapes S _ _ _ _ _ _ _ hplace with
                  ⟨hnone, hshape⟩ | ⟨e, hename, heurl, hshape⟩
                · rw [hshape]
                  exact htop st _ _ _ _ _ hacq hch hmm hnone
                · rw [hshape]
                  obtain ⟨en, ep, eu⟩ := e
                  simp only at hename heurl
                  rw [hename, heurl]
                  exact hunsat st _ _ _ _ _ ep hacq hch hmm
              have hst2 := hlock st1 name c manifest matched mm hacq hch hmm
              have hst3 := goDeps_preserves _ R hrefl htrans
                (fun d r s t out2 h2 => ih d r s t out2 h2) _ _ _ _ heq
              exact htrans _ _ _ (htrans _ _ _ hst1 hst2) hst3

/-! ### Association-list facts -/

theorem lookupA_setA_same {α : Type} (l : List (String × α)) (k : String) (v : α) :
    lookupA (setA l k v) k = some v := by
  induction l with
  | nil => simp [setA, lookupA]
  | cons p rest ih =>
    obtain ⟨k1, v1⟩ := p
    by_cases h : k1 = k
    · subst h
      simp [setA, lookupA]
    · simp [setA, lookupA, h, ih]

theorem lookupA_setA_other {α : Type} (l : List (String × α)) (k : String)
    (v : α) (n : String) (h : n ≠ k) :
    lookupA (setA l k v) n = lookupA l n := by
  have hk : ¬ (k = n) := fun he => h he.symm
  induction l with
  | nil =>
    simp [setA, lookupA, hk]
  | cons p rest ih =>
    obtain ⟨k1, v1⟩ := p
    by_cases h1 : k1 = k
    · by_cases h2 : k1 = n
      · exact absurd (h2.symm.trans h1) h
      · simp [setA, lookupA, h1, h2, hk]
    · by_cases h2 : k1 = n
      · simp [setA, lookupA, h1, h2, h]
      · simp [setA, lookupA, h1, h2, ih]

theorem not_mem_keys_of_lookupA_none {α : Type} (l : List (String × α))
    (k : String) (h : lookupA l k = none) : k ∉ l.map Prod.fst := by
  induction l with
  | nil => simp
  | cons p rest ih =>
    obtain ⟨k1, v1⟩ := p
    by_cases h1 : k1 = k
    · rw [lookupA, if_pos h1] at h
      cases h
    · rw [lookupA, if_neg h1] at h
      simp only [List.map_cons, List.mem_cons]
      intro hc
      rcases hc with hc | hc
      · exact h1 (hc.symm)
      · exact ih h hc

theorem keys_setA_absent {α : Type} (l : List (String × α)) (k : String)
    (v : α) (h : lookupA l k = none) :
    (setA l k v).map Prod.fst = l.map Prod.fst ++ [k] := by
  induction l with
  | nil => simp [setA]
  | cons p rest ih =>
    obtain ⟨k1, v1⟩ := p
    by_cases h1 : k1 = k
    · rw [lookupA, if_pos h1] at h
      cases h
    · rw [lookupA, if_neg h1] at h
      simp [setA, h1, ih h]

/-! ### Lifting preservation to whole runs -/

theorem runGroup_preserves (S : SemverImpl)
    (registry : List (String × Manifest)) (oldLock : Lock) (fuel : Nat)
    (R : St → St → Prop)
    (hrefl : ∀ s, R s s)
    (htrans : ∀ a b c, R a b → R b c → R a c)
    (hcall : ∀ name c st out,
      collectDeps S registry oldLock fuel name c [] st = Except.ok out →
      R st out.2.1) :
    ∀ entries st out, runGroup S registry oldLock fuel entries st = Except.ok out →
      R st out.1 := by
  intro entries
  induction entries with
  | nil =>
    intro st out h
    simp only [runGroup] at h
    cases h
    exact hrefl st
  | cons p rest ih =>
    intro st out h
    obtain ⟨name, range⟩ := p
    simp only [runGroup] at h
    split at h
    · exact absurd h (by simp)
    · rename_i stk1 st1 ret1 heq
      split at h
      · exact absurd h (by simp)
      · rename_i st2 rets2 heq2
        cases h
        have h1 : R st st1 := by simpa using hcall _ _ _ _ heq
        have h2 : R st1 st2 := by simpa using ih _ _ heq2
        exact htrans _ _ _ h1 h2

theorem runList_preserves (S : SemverImpl)
    (registry : List (String × Manifest)) (oldLock : Lock) (fuel : Nat)
    (R : St → St → Prop)
    (hrefl : ∀ s, R s s)
    (htrans : ∀ a b c, R a b → R b c → R a c)
    (hcall : ∀ name c st out,
      collectDeps S registry oldLock fuel name c [] st = Except.ok out →
      R st out.2.1) :
    ∀ root st out, runList S registry oldLock fuel root st = Except.ok out →
      R st out.2 := by
  intro root st out h
  unfold runList at h
  split at h
  · split at h
    · cases h
      exact hrefl st
    · split at h
      · exact absurd h (by simp)
      · rename_i st1 rets1 heq
        cases h
        have h1 : R st st1 := by
          simpa using runGroup_preserves S registry oldLock fuel R hrefl htrans hcall _ _ _ heq
        exact h1
  · split at h
    · exact absurd h (by simp)
    · rename_i st1 rets1 heq
      split at h
      · cases h
        have h1 : R st st1 := by
          simpa using runGroup_preserves S registry oldLock fuel R hrefl htrans hcall _ _ _ heq
        exact h1
      · split at h
        · exact absurd h (by simp)
        · rename_i st2 rets2 heq2
          cases h
          have h1 : R st st1 := by
            simpa using runGroup_preserves S registry oldLock fuel R hrefl htrans hcall _ _ _ heq
          have h2 : R st1 st2 := by
            simpa using runGroup_preserves S registry oldLock fuel R hrefl htrans hcall _ _ _ heq2
          exact htrans _ _ _ h1 h2

/-! ### C4: the top-level map binds each name once, first writer wins -/

/-- Claim C4: across a whole resolution run, an existing `topLevel`
binding is never overwritten (the first traversal to bind a name wins,
later demands for it proceed down the top-level-exists branches), and
the key set of `topLevel` stays duplicate-free, so it holds at most one
binding per name. -/
theorem topLevel_single_binding (S : SemverImpl)
    (registry : List (String × Manifest)) (oldLock : Lock) (fuel : Nat)
    (root : PackageJson) (st : St) (root2 : PackageJson) (st2 : St)
    (h : runList S registry oldLock fuel root st = Except.ok (root2, st2)) :
    (∀ n e, lookupA st.topLevel n = some e → lookupA st2.topLevel n = some e) ∧
    ((st.topLevel.map Prod.fst).Nodup → (st2.topLevel.map Prod.fst).Nodup) := by
  let R : St → St → Prop := fun s s2 =>
    (∀ n e, lookupA s.topLevel n = some e → lookupA s2.topLevel n = some e) ∧
    ((s.topLevel.map Prod.fst).Nodup → (s2.topLevel.map Prod.fst).Nodup)
  have hrefl : ∀ s, R s s := fun s => ⟨fun _ _ hx => hx, id⟩
  have htrans : ∀ a b c, R a b → R b c → R a c := fun a b c hab hbc =>
    ⟨fun n e hx => hbc.1 n e (hab.1 n e hx), fun hx => hbc.2 (hab.2 hx)⟩
  have hcd : ∀ name c st3 out,
      collectDeps S registry oldLock fuel name c [] st3 = Except.ok out →
      R st3 out.2.1 := by
    intro name c st3 out hc
    refine collectDeps_preserves S registry oldLock R hrefl htrans ?_ ?_ ?_
      fuel name c [] st3 out hc
    · intro st4 nm c4 man mt mm _ _ _ hnone
      refine ⟨?_, ?_⟩
      · intro n e hn
        have hne : n ≠ nm := by
          intro he
          rw [he, hnone] at hn
          cases hn
        show lookupA (setA st4.topLevel nm ⟨mm.dist.tarball, mt⟩) n = some e
        rw [lookupA_setA_other _ _ _ _ hne]
        exact hn
      · intro hnd
        show ((setA st4.topLevel nm ⟨mm.dist.tarball, mt⟩).map Prod.fst).Nodup
        rw [keys_setA_absent _ _ _ hnone]
        have hk := not_mem_keys_of_lookupA_none _ _ hnone
        refine List.nodup_append.mpr ⟨hnd, List.nodup_singleton _, ?_⟩
        intro a ha hb
        have : a = nm := by simpa using hb
        rw [this] at ha
        exact hk ha
    · intro st4 nm c4 man mt mm parent _ _ _
      exact ⟨fun _ _ hx => hx, id⟩
    · intro st4 nm c4 man mt mm _ _ _
      exact ⟨fun _ _ hx => hx, id⟩
  have hmain := runList_preserves S registry oldLock fuel R hrefl htrans hcd
    root st (root2, st2) h
  exact hmain

/-- Claim C4 (witness): a run against `regA` from a state already binding
`Z` keeps the `Z` binding and leaves the key set duplicate-free. -/
theorem topLevel_single_binding_witness :
    runList toySemver regA [] 2 ⟨some [("A", "^1.0.0")], none⟩ stZ =
      Except.ok (⟨some [("A", "^1.0.0")], none⟩, stFinZ) ∧
    lookupA stFinZ.topLevel "Z" = some ⟨"uz", "9.9.9"⟩ ∧
    (stFinZ.topLevel.map Prod.fst).Nodup := by
  have h : runList toySemver regA [] 2 ⟨some [("A", "^1.0.0")], none⟩ stZ =
      Except.ok (⟨some [("A", "^1.0.0")], none⟩, stFinZ) := by decide
  have hmain := topLevel_single_binding toySemver regA [] 2
    ⟨some [("A", "^1.0.0")], none⟩ stZ ⟨some [("A", "^1.0.0")], none⟩ stFinZ h
  exact ⟨h, hmain.1 "Z" ⟨"uz", "9.9.9"⟩ (by decide), hmain.2 (by decide)⟩

/-! ### Error provenance -/

theorem acquireManifest_error (oldLock : Lock)
    (registry : List (String × Manifest)) (name c : String) (e : Err)
    (h : acquireManifest oldLock registry name c = Except.error e) :
    e = Err.registryUnreachable := by
  unfold acquireManifest at h
  split at h
  · cases h
  · split at h
    · cases h
    · cases h
      rfl

theorem placement_crash (S : SemverImpl) (name c matched tarball : String)
    (stack : List Frame) (st : St)
    (h : placement S name c matched tarball stack st =
      Except.error Err.emptyStackCrash) :
    stack = [] := by
  unfold placement at h
  split at h
  · cases h
  · split at h
    · split at h
      · cases h
      · cases h
    · split at h
      · rename_i hlast
        exact List.getLast?_eq_none_iff.mp hlast
      · cases h

theorem goDeps_no_crash
    (step : String → String → List Frame → St →
      Except Err (List Frame × St × Option RootRet))
    (hext : ∀ d r s t out, step d r s t = Except.ok out → ∃ ext, out.1 = s ++ ext)
    (hstep : ∀ d r s t, s ≠ [] →
      step d r s t ≠ Except.error Err.emptyStackCrash) :
    ∀ todo stack st, stack ≠ [] →
      goDeps step todo stack st ≠ Except.error Err.emptyStackCrash := by
  intro todo
  induction todo with
  | nil =>
    intro stack st hne h
    simp [goDeps] at h
  | cons p rest ih =>
    intro stack st hne h
    obtain ⟨d, r⟩ := p
    simp only [goDeps] at h
    split at h
    · rename_i e heq
      cases h
      exact hstep _ _ _ _ hne heq
    · rename_i stk1 st1 ret1 heq
      obtain ⟨ext, hext1⟩ := hext _ _ _ _ _ heq
      simp only at hext1
      have hne1 : stk1 ≠ [] := by
        rw [hext1]
        intro hc
        exact hne (List.append_eq_nil.mp hc).1
      exact ih _ _ hne1 h

/-! ### C5: termination -/

theorem placement_error (S : SemverImpl) (name c matched tarball : String)
    (stack : List Frame) (st : St) (e : Err)
    (h : placement S name c matched tarball stack st = Except.error e) :
    e = Err.emptyStackCrash := by
  unfold placement at h
  split at h
  · cases h
  · split at h
    · split at h
      · cases h
      · cases h
    · split at h
      · cases h
        rfl
      · cases h

theorem goDeps_no_fuel (S : SemverImpl)
    (step : String → String → List Frame → St →
      Except Err (List Frame × St × Option RootRet))
    (A : List (String × String))
    (hext : ∀ d r s t out, step d r s t = Except.ok out → ∃ ext, out.1 = s ++ ext)
    (hstep : ∀ d r s t, (∀ p ∈ A, p ∈ s.map framePair) →
      (∀ p ∈ A, p.1 = d → S.satisfies p.2 r = false) →
      step d r s t ≠ Except.error Err.outOfFuel) :
    ∀ todo stack st,
      (∀ p ∈ A, p ∈ stack.map framePair) →
      (∀ q ∈ todo, ∀ p ∈ A, p.1 = q.1 → S.satisfies p.2 q.2 = false) →
      goDeps step todo stack st ≠ Except.error Err.outOfFuel := by
  intro todo
  induction todo with
  | nil =>
    intro stack st _ _ h
    simp [goDeps] at h
  | cons q rest ih =>
    intro stack st hmem hcond h
    obtain ⟨d, r⟩ := q
    simp only [goDeps] at h
    split at h
    · rename_i e heq
      cases h
      exact hstep d r stack st hmem
        (fun p hp hpd => hcond (d, r) (List.mem_cons_self _ _) p hp hpd) heq
    · rename_i stk1 st1 ret1 heq
      obtain ⟨ext, hexteq⟩ := hext _ _ _ _ _ heq
      simp only at hexteq
      have hmem1 : ∀ p ∈ A, p ∈ stk1.map framePair := by
        intro p hp
        rw [hexteq, List.map_append]
        exact List.mem_append_left _ (hmem p hp)
      exact ih stk1 st1 hmem1
        (fun q2 hq2 => hcond q2 (List.mem_cons_of_mem _ hq2)) h

theorem collectDeps_no_fuel (S : SemverImpl)
    (registry : List (String × Manifest)) (oldLock : Lock)
    (U : List (String × String))
    (HS0 : ∀ v, S.satisfies v "" = true)
    (HSsat : ∀ vs c m, c ≠ "" → S.maxSatisfying vs c = some m →
      S.satisfies m c = true)
    (HSmem : ∀ vs c m, S.maxSatisfying vs c = some m → m ∈ vs)
    (HU : ∀ name c manifest v,
      acquireManifest oldLock registry name c = Except.ok manifest →
      v ∈ manifest.map Prod.fst → (name, v) ∈ U) :
    ∀ (fuel : Nat) (A : List (String × String)) (name c : String)
      (stack : List Frame) (st : St),
      A.Nodup → (∀ p ∈ A, p ∈ U) →
      (∀ p ∈ A, p ∈ stack.map framePair) →
      (∀ p ∈ A, p.1 = name → S.satisfies p.2 c = false) →
      U.length + 1 ≤ fuel + A.length →
      collectDeps S registry oldLock fuel name c stack st ≠
        Except.error Err.outOfFuel := by
  intro fuel
  induction fuel with
  | zero =>
    intro A name c stack st hnd hU _ _ hfuel h
    have hle : A.length ≤ U.length :=
      (List.subperm_of_subset hnd (fun p hp => hU p hp)).length_le
    omega
  | succ fuel ih =>
    intro A name c stack st hnd hU hmem hcur hfuel h
    simp only [collectDeps] at h
    split at h
    · rename_i e hacq
      cases h
      have := acquireManifest_error _ _ _ _ _ hacq
      cases this
    · rename_i manifest hacq
      split at h
      · simp at h
      · rename_i matched hch
        split at h
        · simp at h
        · rename_i mm hmm
          split at h
          · rename_i e hplace
            cases h
            have := placement_error _ _ _ _ _ _ _ _ hplace
            cases this
          · simp at h
          · rename_i st1 hplace
            split at h
            · rename_i e heq
              cases h
              -- the chosen version satisfies the constraint and is in the keys
              have hsat : S.satisfies matched c = true := by
                by_cases hc : c = ""
                · rw [hc]
                  exact HS0 matched
                · rw [chooseVersion, if_neg hc] at hch
                  exact HSsat _ _ _ hc hch
              have hkey : matched ∈ manifest.map Prod.fst := by
                by_cases hc : c = ""
                · rw [chooseVersion, if_pos hc] at hch
                  obtain ⟨hne2, heq2⟩ := List.mem_getLast?_eq_getLast hch
                  rw [heq2]
                  exact List.getLast_mem hne2
                · rw [chooseVersion, if_neg hc] at hch
                  exact HSmem _ _ _ hch
              have hnotinA : (name, matched) ∉ A := by
                intro hin
                have := hcur (name, matched) hin rfl
                rw [hsat] at this
                cases this
              have hndA : ((name, matched) :: A).Nodup :=
                List.nodup_cons.mpr ⟨hnotinA, hnd⟩
              have hUA : ∀ p ∈ (name, matched) :: A, p ∈ U := by
                intro p hp
                rcases List.mem_cons.mp hp with hp1 | hp1
                · rw [hp1]
                  exact HU name c manifest matched hacq hkey
                · exact hU p hp1
              have hfuelA : U.length + 1 ≤ fuel + ((name, matched) :: A).length := by
                simp only [List.length_cons]
                omega
              have hmem1 : ∀ p ∈ (name, matched) :: A,
                  p ∈ (stack ++
                    [(⟨name, matched, mm.dependencies.getD []⟩ : Frame)]).map framePair := by
                intro p hp
                rw [List.map_append]
                rcases List.mem_cons.mp hp with hp1 | hp1
                · refine List.mem_append_right _ ?_
                  rw [hp1]
                  exact List.mem_singleton.mpr rfl
                · exact List.mem_append_left _ (hmem p hp1)
              have hcond : ∀ q ∈ (mm.dependencies.getD []).filter
                    (fun p => !hasCirculation S p.1 p.2
                      (stack ++ [(⟨name, matched, mm.dependencies.getD []⟩ : Frame)])),
                  ∀ p ∈ (name, matched) :: A, p.1 = q.1 →
                    S.satisfies p.2 q.2 = false := by
                intro q hq p hp hpq
                have hfilter := List.of_mem_filter hq
                have hcirc : hasCirculation S q.1 q.2
                    (stack ++ [(⟨name, matched, mm.dependencies.getD []⟩ : Frame)]) = false := by
                  simpa using hfilter
                obtain ⟨f, hf, hfp⟩ := List.mem_map.mp (hmem1 p hp)
                by_contra hcontra
                have hsatq : S.satisfies p.2 q.2 = true := by
                  revert hcontra
                  cases S.satisfies p.2 q.2 <;> simp
                have hany : (stack ++
                    [(⟨name, matched, mm.dependencies.getD []⟩ : Frame)]).any
                    (fun item => item.name = q.1 &&
                      S.satisfies item.version q.2) = true := by
                  refine List.any_eq_true.mpr ⟨f, hf, ?_⟩
                  have h1 : f.name = p.1 := congrArg Prod.fst hfp
                  have h2 : f.version = p.2 := congrArg (fun x => x.2) hfp
                  rw [h1, h2, hpq, hsatq]
                  simp
                rw [hasCirculation] at hcirc
                rw [hany] at hcirc
                cases hcirc
              refine goDeps_no_fuel S _ ((name, matched) :: A)
                (fun d r s t out2 h2 => collectDeps_stack_extend S registry oldLock
                  fuel d r s t out2 h2)
                (fun d r s t hm hc2 =>
                  ih ((name, matched) :: A) d r s t hndA hUA hm hc2 hfuelA)
                _ _ _ hmem1 hcond heq
            · simp at h

/-- Claim C5: resolution terminates on every dependency graph over a
finite registry, cycles included: with fuel exceeding the number of
`(name, version)` pairs the manifests can supply, a run never exhausts
its fuel, because `hasCirculation` skips any `(dep, depRange)` some
stack frame already covers, so no recursion path revisits a pair. -/
theorem resolution_terminates (S : SemverImpl)
    (registry : List (String × Manifest)) (oldLock : Lock)
    (U : List (String × String)) (fuel : Nat) (root : PackageJson) (st : St)
    (HS0 : ∀ v, S.satisfies v "" = true)
    (HSsat : ∀ vs c m, c ≠ "" → S.maxSatisfying vs c = some m →
      S.satisfies m c = true)
    (HSmem : ∀ vs c m, S.maxSatisfying vs c = some m → m ∈ vs)
    (HU : ∀ name c manifest v,
      acquireManifest oldLock registry name c = Except.ok manifest →
      v ∈ manifest.map Prod.fst → (name, v) ∈ U)
    (hfuel : U.length + 1 ≤ fuel) :
    runList S registry oldLock fuel root st ≠ Except.error Err.outOfFuel := by
  have hcall : ∀ name c st3,
      collectDeps S registry oldLock fuel name c [] st3 ≠
        Except.error Err.outOfFuel := by
    intro name c st3
    refine collectDeps_no_fuel S registry oldLock U HS0 HSsat HSmem HU fuel []
      name c [] st3 List.nodup_nil ?_ ?_ ?_ ?_
    · intro p hp
      cases hp
    · intro p hp
      cases hp
    · intro p hp
      cases hp
    · omega
  have hgroup : ∀ entries st3,
      runGroup S registry oldLock fuel entries st3 ≠
        Except.error Err.outOfFuel := by
    intro entries
    induction entries with
    | nil =>
      intro st3 h
      simp [runGroup] at h
    | cons p rest ih =>
      intro st3 h
      obtain ⟨n, r⟩ := p
      simp only [runGroup] at h
      split at h
      · rename_i e heq
        cases h
        exact hcall n r st3 heq
      · rename_i stk1 st1 ret1 heq
        split at h
        · rename_i e heq2
          cases h
          exact ih st1 heq2
        · simp at h
  intro h
  unfold runList at h
  split at h
  · split at h
    · simp at h
    · split at h
      · rename_i e heq
        cases h
        exact hgroup _ _ heq
      · simp at h
  · split at h
    · rename_i e heq
      cases h
      exact hgroup _ _ heq
    · rename_i st1 rets1 heq
      split at h
      · simp at h
      · split at h
        · rename_i e heq2
          cases h
          exact hgroup _ _ heq2
        · simp at h

/-- Claim C5 (witness): the mutually cyclic registry
`A@1.0.0 → B@^1.0.0 → A@1.0.0` resolves without exhausting fuel `3`,
one more than the two available `(name, version)` pairs. -/
theorem resolution_terminates_witness :
    pairsCyc.length + 1 ≤ 3 ∧
    runList toySemver regCyc [] 3 rootCyc st0 ≠ Except.error Err.outOfFuel := by
  refine ⟨by decide, ?_⟩
  refine resolution_terminates toySemver regCyc [] pairsCyc 3 rootCyc st0
    toy_satisfies_empty
    (fun vs c m _ hm => toy_maxSat_satisfies vs c m hm)
    toy_maxSat_mem ?_ (by decide)
  intro name c manifest v hacq hv
  simp only [acquireManifest, getItem, lookupA] at hacq
  split_ifs at hacq with h1 h2
  · have hm : manifest =
        [("1.0.0", ⟨some [("B", "^1.0.0")], ⟨"sa", "ua"⟩⟩)] := by
      simpa using hacq.symm
    rw [hm] at hv
    have hv1 : v = "1.0.0" := by simpa using hv
    rw [← h1, hv1]
    decide
  · have hm : manifest =
        [("1.0.0", ⟨some [("A", "^1.0.0")], ⟨"sb", "ub"⟩⟩)] := by
      simpa using hacq.symm
    rw [hm] at hv
    have hv1 : v = "1.0.0" := by simpa using hv
    rw [← h2, hv1]
    decide

/-! ### C8 helpers: calls with non-empty ranges return nothing -/

theorem collectDeps_ret_none (S : SemverImpl)
    (registry : List (String × Manifest)) (oldLock : Lock) (fuel : Nat)
    (name c : String) (stack : List Frame) (st : St)
    (out : List Frame × St × Option RootRet) (hc : c ≠ "")
    (h : collectDeps S registry oldLock fuel name c stack st = Except.ok out) :
    out.2.2 = none := by
  cases fuel with
  | zero => simp [collectDeps] at h
  | succ fuel =>
    simp only [collectDeps] at h
    split at h
    · exact absurd h (by simp)
    · split at h
      · exact absurd h (by simp)
      · split at h
        · exact absurd h (by simp)
        · split at h
          · exact absurd h (by simp)
          · cases h
            rfl
          · split at h
            · exact absurd h (by simp)
            · cases h
              simp [hc]

theorem runGroup_rets_none (S : SemverImpl)
    (registry : List (String × Manifest)) (oldLock : Lock) (fuel : Nat) :
    ∀ (entries : List (String × String)) (st : St)
      (out : St × List (Option RootRet)),
      (∀ p ∈ entries, p.2 ≠ "") →
      runGroup S registry oldLock fuel entries st = Except.ok out →
      ∀ r ∈ out.2, r = none := by
  intro entries
  induction entries with
  | nil =>
    intro st out _ h r hr
    simp only [runGroup] at h
    cases h
    simp at hr
  | cons p rest ih =>
    intro st out hne h r hr
    obtain ⟨name, range⟩ := p
    simp only [runGroup] at h
    split at h
    · exact absurd h (by simp)
    · rename_i stk1 st1 ret1 heq
      split at h
      · exact absurd h (by simp)
      · rename_i st5 rets5 heq2
        cases h
        rcases List.mem_cons.mp hr with hr1 | hr1
        · rw [hr1]
          have hrange : range ≠ "" := hne (name, range) (List.mem_cons_self _ _)
          exact collectDeps_ret_none S registry oldLock fuel name range [] st
            (stk1, st1, ret1) hrange heq
        · exact ih st1 (st5, rets5)
            (fun q hq => hne q (List.mem_cons_of_mem _ hq)) heq2 r hr1

theorem applyRootRets_none (m : List (String × String))
    (rets : List (Option RootRet)) (h : ∀ r ∈ rets, r = none) :
    applyRootRets m rets = m := by
  induction rets generalizing m with
  | nil => rfl
  | cons r rest ih =>
    have hr : r = none := h r (List.mem_cons_self _ _)
    rw [hr] at h ⊢
    simp only [applyRootRets, List.foldl_cons]
    exact ih m (fun q hq => h q (List.mem_cons_of_mem _ hq))

theorem runList_id (S : SemverImpl)
    (registry : List (String × Manifest)) (oldLock : Lock) (fuel : Nat)
    (root : PackageJson) (st : St) (out : PackageJson × St)
    (hdeps : ∀ p ∈ root.dependencies.getD [], p.2 ≠ "")
    (hdev : ∀ p ∈ root.devDependencies.getD [], p.2 ≠ "")
    (h : runList S registry oldLock fuel root st = Except.ok out) :
    out.1 = root := by
  unfold runList at h
  split at h
  · rename_i hnone
    split at h
    · cases h
      rfl
    · rename_i dev hdev2
      split at h
      · exact absurd h (by simp)
      · rename_i st5 rets5 heq
        cases h
        have hall : ∀ r ∈ rets5, r = none := by
          refine runGroup_rets_none S registry oldLock fuel dev st (st5, rets5)
            ?_ heq
          intro p hp
          refine hdev p ?_
          rw [hdev2]
          exact hp
        show ({ dependencies := root.dependencies,
                devDependencies := some (applyRootRets dev rets5) } :
            PackageJson) = root
        rw [applyRootRets_none dev rets5 hall]
        obtain ⟨d1, d2⟩ := root
        simp only at hdev2
        rw [hdev2]
  · rename_i deps hsome
    split at h
    · exact absurd h (by simp)
    · rename_i st5 rets5 heq
      have hd : ∀ r ∈ rets5, r = none := by
        refine runGroup_rets_none S registry oldLock fuel deps st (st5, rets5)
          ?_ heq
        intro p hp
        refine hdeps p ?_
        rw [hsome]
        exact hp
      split at h
      · rename_i hdnone
        cases h
        show ({ dependencies := some (applyRootRets deps rets5),
                devDependencies := root.devDependencies } :
            PackageJson) = root
        rw [applyRootRets_none deps rets5 hd]
        obtain ⟨d1, d2⟩ := root
        simp only at hsome
        rw [hsome]
      · rename_i dev hdev2
        split at h
        · exact absurd h (by simp)
        · rename_i st6 rets6 heq2
          cases h
          have hd2 : ∀ r ∈ rets6, r = none := by
            refine runGroup_rets_none S registry oldLock fuel dev st5
              (st6, rets6) ?_ heq2
            intro p hp
            refine hdev p ?_
            rw [hdev2]
            exact hp
          show ({ dependencies := some (applyRootRets deps rets5),
                  devDependencies := some (applyRootRets dev rets6) } :
              PackageJson) = root
          rw [applyRootRets_none deps rets5 hd, applyRootRets_none dev rets6 hd2]
          obtain ⟨d1, d2⟩ := root
          simp only at hsome hdev2
          rw [hsome, hdev2]

/-- Claim C8 (amended): a call made with a non-empty range returns
nothing; a call that returns something was made with an empty range and
returns `{ name, version := "^" ++ matched }` for the chosen version
`matched` — except that an empty-range call whose demand is already
covered by a compatible top-level copy takes the early return and also
returns nothing (see the counterexample).  Consequently a second run on
a manifest whose ranges are all the non-empty rewritten `^X.Y.Z`
strings leaves the manifest unchanged. -/
theorem root_signal_characterization (S : SemverImpl)
    (registry : List (String × Manifest)) (oldLock : Lock) (fuel : Nat)
    (name c : String) (stack : List Frame) (st : St)
    (out : List Frame × St × Option RootRet)
    (h : collectDeps S registry oldLock (fuel + 1) name c stack st =
      Except.ok out)
    (root3 : PackageJson) (st3 : St) (fuel2 : Nat)
    (root4 : PackageJson) (st4 : St)
    (hdeps : ∀ p ∈ root3.dependencies.getD [], p.2 ≠ "")
    (hdev : ∀ p ∈ root3.devDependencies.getD [], p.2 ≠ "")
    (hr : runList S registry oldLock fuel2 root3 st3 = Except.ok (root4, st4)) :
    (c ≠ "" → out.2.2 = none) ∧
    (∀ x, out.2.2 = some x → c = "" ∧
      ∃ manifest v, acquireManifest oldLock registry name c = Except.ok manifest ∧
        chooseVersion S manifest c = some v ∧ x = ⟨name, "^" ++ v⟩) ∧
    root4 = root3 := by
  refine ⟨fun hc => collectDeps_ret_none S registry oldLock (fuel + 1) name c
    stack st out hc h, ?_, runList_id S registry oldLock fuel2 root3 st3
    (root4, st4) hdeps hdev hr⟩
  intro x hx
  simp only [collectDeps] at h
  split at h
  · exact absurd h (by simp)
  · rename_i manifest hacq
    split at h
    · exact absurd h (by simp)
    · rename_i matched hch
      split at h
      · exact absurd h (by simp)
      · rename_i mm hmm
        split at h
        · exact absurd h (by simp)
        · cases h
          cases hx
        · split at h
          · exact absurd h (by simp)
          · rename_i stack2 st5 heq
            cases h
            simp only at hx
            by_cases hc : c = ""
            · rw [if_pos hc] at hx
              cases hx
              exact ⟨hc, manifest, matched, hacq, (hc ▸ hch), rfl⟩
            · rw [if_neg hc] at hx
              cases hx

/-- Claim C8 (witness): the characterization at the concrete completed
call for `A@^1.0.0` (non-empty range, so it returns nothing) and at a
rewritten manifest whose second run leaves it unchanged. -/
theorem root_signal_characterization_witness :
    (("^1.0.0" : String) ≠ "" →
      (([⟨"A", "1.0.0", []⟩],
        (⟨[("A", ⟨"ua", "1.0.0"⟩)], [],
          [("A@^1.0.0", ⟨"1.0.0", "ua", "sa", []⟩)]⟩ : St),
        (none : Option RootRet)) :
          List Frame × St × Option RootRet).2.2 = none) ∧
    (∀ p ∈ (some [("A", "^1.0.0")] : Option (List (String × String))).getD [],
      p.2 ≠ "") ∧
    (⟨some [("A", "^1.0.0")], none⟩ : PackageJson) =
      ⟨some [("A", "^1.0.0")], none⟩ := by
  have h : collectDeps toySemver regA [] 1 "A" "^1.0.0" [] st0 =
      Except.ok ([⟨"A", "1.0.0", []⟩],
        ⟨[("A", ⟨"ua", "1.0.0"⟩)], [],
          [("A@^1.0.0", ⟨"1.0.0", "ua", "sa", []⟩)]⟩, none) := by decide
  have hr : runList toySemver regA [] 2 ⟨some [("A", "^1.0.0")], none⟩ stZ =
      Except.ok (⟨some [("A", "^1.0.0")], none⟩, stFinZ) := by decide
  have hdeps : ∀ p ∈ (⟨some [("A", "^1.0.0")], none⟩ :
      PackageJson).dependencies.getD [], p.2 ≠ "" := by decide
  have hdev : ∀ p ∈ (⟨some [("A", "^1.0.0")], none⟩ :
      PackageJson).devDependencies.getD [], p.2 ≠ "" := by decide
  have hmain := root_signal_characterization toySemver regA [] 0 "A" "^1.0.0"
    [] st0 _ h ⟨some [("A", "^1.0.0")], none⟩ stZ 2
    ⟨some [("A", "^1.0.0")], none⟩ stFinZ hdeps hdev hr
  exact ⟨hmain.1, hdeps, hmain.2.2⟩

/-! ### C10: reading the last stack frame -/

/-- Claim C10 (amended): the incompatible placement branch reads
`stack.at(-1)!.name`; when the dependency stack is non-empty that read
is safe, and since every descent only ever grows the stack, a call
entered with a non-empty stack can never fail with the empty-stack
crash — the crash is reachable only from direct root demands, which run
on an empty stack (see the counterexample). -/
theorem collectDeps_no_crash (S : SemverImpl)
    (registry : List (String × Manifest)) (oldLock : Lock) :
    ∀ fuel name c stack st, stack ≠ [] →
      collectDeps S registry oldLock fuel name c stack st ≠
        Except.error Err.emptyStackCrash := by
  intro fuel
  induction fuel with
  | zero =>
    intro name c stack st hne h
    simp [collectDeps] at h
  | succ fuel ih =>
    intro name c stack st hne h
    simp only [collectDeps] at h
    split at h
    · rename_i e hacq
      cases h
      have := acquireManifest_error _ _ _ _ _ hacq
      cases this
    · split at h
      · simp at h
      · split at h
        · simp at h
        · split at h
          · rename_i e hplace
            cases h
            exact hne (placement_crash _ _ _ _ _ _ _ hplace)
          · cases h
          · split at h
            · rename_i e heq
              cases h
              exact goDeps_no_crash _
                (fun d r s t out2 h2 => collectDeps_stack_extend S registry oldLock
                  fuel d r s t out2 h2)
                (fun d r s t hs => ih d r s t hs) _ _ _
                (by intro hc; simpa using congrArg List.length hc) heq
            · cases h

/-- Claim C10 (witness): a nested incompatible demand for `A` with the
one-frame stack `[B]` does not crash. -/
theorem collectDeps_no_crash_witness :
    ([⟨"B", "1.0.0", []⟩] : List Frame) ≠ [] ∧
    collectDeps toySemver regTwoMajor [] 1 "A" "^2.0.0"
      [⟨"B", "1.0.0", []⟩] ⟨[("A", ⟨"u1", "1.0.0"⟩)], [], []⟩ ≠
      Except.error Err.emptyStackCrash :=
  ⟨by decide, collectDeps_no_crash toySemver regTwoMajor [] 1 "A" "^2.0.0"
    [⟨"B", "1.0.0", []⟩] ⟨[("A", ⟨"u1", "1.0.0"⟩)], [], []⟩ (by decide)⟩

/-! ### C3: the early return skips the lock update -/

/-- Claim C3 (counterexample): resolving `A@^1.0.0` and then the already
covered compatible demand `A@1.0.0`, the second call chooses a version
but takes the early return of line 52, so the new lock ends with the
key `A@^1.0.0` and no key `A@1.0.0`. -/
theorem lock_skip_counterexample :
    (okSt (runList toySemver regA [] 2 rootCompat st0)).map
      (fun s => (lookupA s.newLock "A@^1.0.0", lookupA s.newLock "A@1.0.0")) =
      some (some ⟨"1.0.0", "ua", "sa", []⟩, none) := by
  decide

theorem placement_none (S : SemverImpl) (name c matched tarball : String)
    (stack : List Frame) (st : St)
    (h : placement S name c matched tarball stack st = Except.ok none) :
    ∃ t, lookupA st.topLevel name = some t ∧ S.satisfies t.version c = true ∧
      checkStackDependencies S name matched stack = -1 := by
  unfold placement at h
  split at h
  · simp at h
  · rename_i t ht
    split at h
    · rename_i hsat
      split at h
      · rename_i hci
        exact ⟨t, ht, hsat, hci⟩
      · simp at h
    · split at h
      · cases h
      · simp at h

theorem lookupA_setA_isSome {α : Type} (l : List (String × α)) (k2 : String)
    (v : α) (k : String) (h : (lookupA l k).isSome = true) :
    (lookupA (setA l k2 v) k).isSome = true := by
  by_cases he : k = k2
  · rw [he, lookupA_setA_same]
    rfl
  · rw [lookupA_setA_other _ _ _ _ he]
    exact h

theorem mem_setA {α : Type} (l : List (String × α)) (k : String) (v : α) :
    ∀ p ∈ setA l k v, p = (k, v) ∨ p ∈ l := by
  induction l with
  | nil =>
    intro p hp
    simp [setA] at hp
    exact Or.inl hp
  | cons q rest ih =>
    intro p hp
    obtain ⟨k1, v1⟩ := q
    by_cases h1 : k1 = k
    · simp only [setA] at hp
      rw [if_pos h1] at hp
      rcases List.mem_cons.mp hp with hh | hh
      · exact Or.inl (by rw [hh, h1])
      · exact Or.inr (List.mem_cons_of_mem _ hh)
    · simp only [setA] at hp
      rw [if_neg h1] at hp
      rcases List.mem_cons.mp hp with hh | hh
      · exact Or.inr (by rw [hh]; exact List.mem_cons_self _ _)
      · rcases ih p hh with h2 | h2
        · exact Or.inl h2
        · exact Or.inr (List.mem_cons_of_mem _ h2)

/-- Claim C3 (amended): a successful call either takes the early return of
line 52 — an existing compatible top-level copy and a conflict scan of
`-1`, in which case nothing is recorded and there is no descent — or it
records an entry in the new lock under the key `name@constraint` (the
requested range, not the chosen version), every lock binding stays the
canonical record (matched version, tarball, shasum, dependency map) of
some demand, and the call pushes its frame and descends. -/
theorem collectDeps_lock_record (S : SemverImpl)
    (registry : List (String × Manifest)) (oldLock : Lock) (fuel : Nat)
    (name c : String) (stack : List Frame) (st : St)
    (out : List Frame × St × Option RootRet)
    (h : collectDeps S registry oldLock (fuel + 1) name c stack st =
      Except.ok out) :
    (∃ t manifest matched,
      lookupA st.topLevel name = some t ∧
      acquireManifest oldLock registry name c = Except.ok manifest ∧
      chooseVersion S manifest c = some matched ∧
      S.satisfies t.version c = true ∧
      checkStackDependencies S name matched stack = -1 ∧
      out = (stack, st, none)) ∨
    (∃ manifest matched mm ext,
      acquireManifest oldLock registry name c = Except.ok manifest ∧
      chooseVersion S manifest c = some matched ∧
      lookupA manifest matched = some mm ∧
      (lookupA out.2.1.newLock (name ++ "@" ++ c)).isSome = true ∧
      out.1 = stack ++ ⟨name, matched, mm.dependencies.getD []⟩ :: ext ∧
      (LockCanonical S registry oldLock st.newLock →
        LockCanonical S registry oldLock out.2.1.newLock)) := by
  simp only [collectDeps] at h
  split at h
  · exact absurd h (by simp)
  · rename_i manifest hacq
    split at h
    · exact absurd h (by simp)
    · rename_i matched hch
      split at h
      · exact absurd h (by simp)
      · rename_i mm hmm
        split at h
        · exact absurd h (by simp)
        · rename_i hplace
          cases h
          obtain ⟨t, ht, hsat, hci⟩ := placement_none _ _ _ _ _ _ _ hplace
          exact Or.inl ⟨t, manifest, matched, ht, hacq, hch, hsat, hci, rfl⟩
        · rename_i st1 hplace
          split at h
          · exact absurd h (by simp)
          · rename_i stack2 st3 heq
            cases h
            have hnl1 : st1.newLock = st.newLock := by
              rcases placement_shapes S _ _ _ _ _ _ _ hplace with
                ⟨_, hs⟩ | ⟨e, _, _, hs⟩ <;> rw [hs]
            obtain ⟨ext, hext⟩ := goDeps_stack_extend _
              (fun d r s t2 out2 h2 => collectDeps_stack_extend S registry oldLock
                fuel d r s t2 out2 h2) _ _ _ _ heq
            simp only at hext
            let R : St → St → Prop := fun s s2 =>
              (∀ k, (lookupA s.newLock k).isSome = true →
                (lookupA s2.newLock k).isSome = true) ∧
              (LockCanonical S registry oldLock s.newLock →
                LockCanonical S registry oldLock s2.newLock)
            have hrefl : ∀ s, R s s := fun s => ⟨fun _ hk => hk, id⟩
            have htrans : ∀ a b c2, R a b → R b c2 → R a c2 :=
              fun a b c2 hab hbc =>
                ⟨fun k hk => hbc.1 k (hab.1 k hk), fun hc => hbc.2 (hab.2 hc)⟩
            have hstepR : ∀ fuel2 nm2 c2 stk2 st4 out2,
                collectDeps S registry oldLock fuel2 nm2 c2 stk2 st4 =
                  Except.ok out2 → R st4 out2.2.1 := by
              intro fuel2 nm2 c2 stk2 st4 out2 hc
              refine collectDeps_preserves S registry oldLock R hrefl htrans
                ?_ ?_ ?_ fuel2 nm2 c2 stk2 st4 out2 hc
              · intro st5 n5 c5 man5 mt5 mm5 _ _ _ _
                exact ⟨fun _ hk => hk, id⟩
              · intro st5 n5 c5 man5 mt5 mm5 par5 _ _ _
                exact ⟨fun _ hk => hk, id⟩
              · intro st5 n5 c5 man5 mt5 mm5 hA hB hC
                constructor
                · intro k hk
                  exact lookupA_setA_isSome _ _ _ _ hk
                · intro hcan p hp
                  rcases mem_setA _ _ _ p hp with hpk | hpl
                  · exact ⟨n5, c5, man5, mt5, mm5, by rw [hpk], hA, hB, hC,
                      by rw [hpk]⟩
                  · exact hcan p hpl
            have hR := goDeps_preserves _ R hrefl htrans
              (fun d r s t2 out2 h2 => hstepR fuel d r s t2 out2 h2) _ _ _ _ heq
            simp only at hR
            refine Or.inr ⟨manifest, matched, mm, ext, hacq, hch, hmm, ?_, ?_, ?_⟩
            · refine hR.1 (name ++ "@" ++ c) ?_
              show (lookupA (setA st1.newLock (name ++ "@" ++ c)
                ⟨matched, mm.dist.tarball, mm.dist.shasum,
                  mm.dependencies.getD []⟩) (name ++ "@" ++ c)).isSome = true
              rw [lookupA_setA_same]
              rfl
            · rw [hext]
              simp
            · intro hcan
              refine hR.2 ?_
              show LockCanonical S registry oldLock
                (setA st1.newLock (name ++ "@" ++ c)
                  ⟨matched, mm.dist.tarball, mm.dist.shasum,
                    mm.dependencies.getD []⟩)
              intro p hp
              rcases mem_setA _ _ _ p hp with hpk | hpl
              · exact ⟨name, c, manifest, matched, mm, by rw [hpk], hacq, hch,
                  hmm, by rw [hpk]⟩
              · rw [hnl1] at hpl
                exact hcan p hpl

/-- Claim C3 (witness): the recorded branch of the amended
characterization at the concrete call resolving `A@^1.0.0` from the
empty state. -/
theorem collectDeps_lock_record_witness :
    collectDeps toySemver regA [] 1 "A" "^1.0.0" [] st0 =
      Except.ok ([⟨"A", "1.0.0", []⟩],
        ⟨[("A", ⟨"ua", "1.0.0"⟩)], [],
          [("A@^1.0.0", ⟨"1.0.0", "ua", "sa", []⟩)]⟩, none) ∧
    ((∃ t manifest matched,
      lookupA st0.topLevel "A" = some t ∧
      acquireManifest [] regA "A" "^1.0.0" = Except.ok manifest ∧
      chooseVersion toySemver manifest "^1.0.0" = some matched ∧
      toySemver.satisfies t.version "^1.0.0" = true ∧
      checkStackDependencies toySemver "A" matched [] = -1 ∧
      (([⟨"A", "1.0.0", []⟩],
        (⟨[("A", ⟨"ua", "1.0.0"⟩)], [],
          [("A@^1.0.0", ⟨"1.0.0", "ua", "sa", []⟩)]⟩ : St), none) :
        List Frame × St × Option RootRet) = ([], st0, none)) ∨
    (∃ manifest matched mm ext,
      acquireManifest [] regA "A" "^1.0.0" = Except.ok manifest ∧
      chooseVersion toySemver manifest "^1.0.0" = some matched ∧
      lookupA manifest matched = some mm ∧
      (lookupA (⟨[("A", ⟨"ua", "1.0.0"⟩)], [],
        [("A@^1.0.0", ⟨"1.0.0", "ua", "sa", []⟩)]⟩ : St).newLock
        ("A" ++ "@" ++ "^1.0.0")).isSome = true ∧
      ([⟨"A", "1.0.0", []⟩] : List Frame) =
        [] ++ ⟨"A", matched, mm.dependencies.getD []⟩ :: ext ∧
      (LockCanonical toySemver regA [] st0.newLock →
        LockCanonical toySemver regA []
          (⟨[("A", ⟨"ua", "1.0.0"⟩)], [],
            [("A@^1.0.0", ⟨"1.0.0", "ua", "sa", []⟩)]⟩ : St).newLock))) := by
  have h : collectDeps toySemver regA [] 1 "A" "^1.0.0" [] st0 =
      Except.ok ([⟨"A", "1.0.0", []⟩],
        ⟨[("A", ⟨"ua", "1.0.0"⟩)], [],
          [("A@^1.0.0", ⟨"1.0.0", "ua", "sa", []⟩)]⟩, none) := by decide
  exact ⟨h, collectDeps_lock_record toySemver regA [] 0 "A" "^1.0.0" [] st0 _ h⟩

/-! ### C7: unsatisfied entries do not record the chosen version -/

/-- Claim C7 (counterexample): two resolutions that choose different
versions of `A` for the nested conflicting demand (exactly `2.0.0` in
one registry, exactly `3.0.0` in the other, tarball urls shared) push
the identical `unsatisfied` entry `{name := A, parent := B, url := u}`,
while the locks show the chosen versions differ — so an `unsatisfied`
entry has no version field and does not determine the chosen
version. -/
theorem unsat_no_version_counterexample :
    (okSt (runList toySemver regShared2 [] 3 rootAB st0)).map
      (fun s => s.unsatisfied) = some [⟨"A", "B", "u"⟩] ∧
    (okSt (runList toySemver regShared3 [] 3 rootAB st0)).map
      (fun s => s.unsatisfied) = some [⟨"A", "B", "u"⟩] ∧
    (okSt (runList toySemver regShared2 [] 3 rootAB st0)).map
      (fun s => lookupA s.newLock "A@2.0.0") =
      some (some ⟨"2.0.0", "u", "s", []⟩) ∧
    (okSt (runList toySemver regShared3 [] 3 rootAB st0)).map
      (fun s => lookupA s.newLock "A@3.0.0") =
      some (some ⟨"3.0.0", "u", "s", []⟩) := by
  decide

/-- Claim C7 (amended): every entry of `unsatisfied` produced by a run is
a record with exactly the three fields `name`, `parent` and `url` — no
version field — where `name` is the demanded package and `url` is the
`dist.tarball` of that demand's matched manifest version. -/
theorem unsatisfied_entry_shape (S : SemverImpl)
    (registry : List (String × Manifest)) (oldLock : Lock) (fuel : Nat)
    (root : PackageJson) (st : St) (root2 : PackageJson) (st2 : St)
    (h : runList S registry oldLock fuel root st = Except.ok (root2, st2)) :
    ∀ e ∈ st2.unsatisfied,
      e ∈ st.unsatisfied ∨ EntryFromDemand S registry oldLock e := by
  let R : St → St → Prop := fun s s2 =>
    ∀ e ∈ s2.unsatisfied, e ∈ s.unsatisfied ∨ EntryFromDemand S registry oldLock e
  have hrefl : ∀ s, R s s := fun s e he => Or.inl he
  have htrans : ∀ a b c, R a b → R b c → R a c := fun a b c hab hbc e he =>
    (hbc e he).elim (fun hb => hab e hb) Or.inr
  have hcd : ∀ name c st3 out,
      collectDeps S registry oldLock fuel name c [] st3 = Except.ok out →
      R st3 out.2.1 := by
    intro name c st3 out hc
    refine collectDeps_preserves S registry oldLock R hrefl htrans ?_ ?_ ?_
      fuel name c [] st3 out hc
    · intro st4 nm c4 man mt mm _ _ _ _
      exact fun e he => Or.inl he
    · intro st4 nm c4 man mt mm parent hA hB hC
      intro e he
      rcases List.mem_append.mp he with he1 | he2
      · exact Or.inl he1
      · have hee : e = ⟨nm, parent, mm.dist.tarball⟩ := by simpa using he2
        exact Or.inr ⟨nm, c4, man, mt, mm, hA, hB, hC, by rw [hee], by rw [hee]⟩
    · intro st4 nm c4 man mt mm _ _ _
      exact fun e he => Or.inl he
  exact runList_preserves S registry oldLock fuel R hrefl htrans hcd
    root st (root2, st2) h

/-- Claim C7 (witness): the amended shape property at the concrete
conflicting run — the single pushed entry is credited to the demand
whose matched version supplied its url. -/
theorem unsatisfied_entry_shape_witness :
    runList toySemver regShared2 [] 3 rootAB st0 =
      Except.ok (rootAB, stShared2Fin) ∧
    ((⟨"A", "B", "u"⟩ : UnsatEntry) ∈ st0.unsatisfied ∨
      EntryFromDemand toySemver regShared2 [] ⟨"A", "B", "u"⟩) := by
  have h : runList toySemver regShared2 [] 3 rootAB st0 =
      Except.ok (rootAB, stShared2Fin) := by decide
  exact ⟨h, unsatisfied_entry_shape toySemver regShared2 [] 3 rootAB st0 rootAB
    stShared2Fin h ⟨"A", "B", "u"⟩ (by decide)⟩

/-! ### C8: the root signal -/

/-- Claim C8 (counterexample): with the unconstrained `A` in both
`dependencies` and `devDependencies`, the second (dev) root call has an
empty range yet returns nothing — it takes the early return of line 52
because the bound copy satisfies the empty range — so only the runtime
entry is rewritten to the caret constraint and the dev entry stays
`""`. -/
theorem root_signal_counterexample :
    okRoot (runList toySemver regA [] 2 rootEmptyTwice st0) =
      some ⟨some [("A", "^1.0.0")], some [("A", "")]⟩ := by
  decide

/-! ### C10: the `stack.at(-1)!` read -/

/-- Claim C10 (counterexample): a name listed in both `dependencies` and
`devDependencies` with incompatible ranges reaches the incompatible
placement branch with an empty stack, and the `stack.at(-1)!.name` read
fails — resolution crashes instead of reading a last frame. -/
theorem empty_stack_crash_counterexample :
    errOf (runList toySemver regTwoMajor [] 2 rootClash st0) =
      some Err.emptyStackCrash := by
  decide

end TinyPM
